import Mathlib

/-!
Verification of the OpenFluke/pixel orchestration client.

The Go sources (`engine.go` and the unnamed variant file) implement a TCP
client for a remote simulation server: a sentinel-framed message protocol
(`sendJSONMessage` / `readResponse`), a mutex-guarded in-memory registry
(`globalCubeList` / `globalCubeLinks`), and batch operations that fan out
one goroutine per item and join on a `sync.WaitGroup`.

This file gives a shallow embedding of those parts and proves/refutes the
frozen claims about them.  Byte streams are modelled as lists of characters;
a stream that has been fully delivered ends in a read error (EOF or the
3-second deadline), which is the only way `readResponse`'s loop observes the
end of input.  Wall-clock timing is not modelled: the read deadline is
represented only by the fact that every stream eventually errors.
-/

namespace Pixel

/-! ## Protocol constants

`delimiter = "<???DONE???---"` from the Go sources, as an explicit character
list. -/

def delim : List Char :=
  ['<', '?', '?', '?', 'D', 'O', 'N', 'E', '?', '?', '?', '-', '-', '-']

/-! ## `bufio.Reader.ReadString('-')` on a fully-buffered stream

`splitAtDash s` returns `some (line, rest)` where `line` is everything up to
and including the first `'-'` of `s`, mirroring a successful
`ReadString('-')`; it returns `none` when `s` has no `'-'`, in which case the
real call blocks until the deadline and returns the remaining data with an
error. -/

def splitAtDash : List Char → Option (List Char × List Char)
  | [] => none
  | c :: cs =>
    if c = '-' then some ([c], cs)
    else (splitAtDash cs).map (fun p => (c :: p.1, p.2))

/-- `strings.Contains hay pat` specialised to character lists: does `pat`
occur as a contiguous substring of the second argument? -/
def containsSub (pat : List Char) : List Char → Bool
  | [] => pat.isPrefixOf []
  | c :: rest => pat.isPrefixOf (c :: rest) || containsSub pat rest

/-- The white-space predicate of Go's `unicode.IsSpace`, used by
`strings.TrimSpace`. -/
def goIsSpace (c : Char) : Bool :=
  c = ' ' || c = '\t' || c = '\n' || c = '\x0b' || c = '\x0c' || c = '\r' ||
  c = '\u0085' || c = '\u00a0' || c = '\u1680' ||
  ('\u2000' ≤ c && c ≤ '\u200a') ||
  c = '\u2028' || c = '\u2029' || c = '\u202f' || c = '\u205f' || c = '\u3000'

/-- `strings.TrimSpace`: drop leading and trailing white space. -/
def trimSpace (s : List Char) : List Char :=
  ((s.dropWhile goIsSpace).reverse.dropWhile goIsSpace).reverse

/-- `strings.ReplaceAll s delimiter ""`: remove every (leftmost,
non-overlapping) occurrence of the delimiter.  The `fuel` argument bounds the
recursion; `stripDelim` below supplies `s.length`, which is always enough
(`stripDelimF_fuel_irrelevant`). -/
def stripDelimF : Nat → List Char → List Char
  | 0, s => s
  | _ + 1, [] => []
  | fuel + 1, c :: rest =>
    if delim.isPrefixOf (c :: rest) then stripDelimF fuel (rest.drop 13)
    else c :: stripDelimF fuel rest

def stripDelim (s : List Char) : List Char := stripDelimF s.length s

/-! ## `readResponse`, single-string view

`readAccF` is the read loop of `readResponse` run over a stream whose bytes
are `s` followed by a read error: repeatedly `ReadString('-')`; on error break
(discarding the partial line, as the Go code does); otherwise append the line
to the builder and break if the line contains the delimiter. -/

def readAccF : Nat → List Char → List Char → List Char
  | 0, _, acc => acc
  | fuel + 1, s, acc =>
    match splitAtDash s with
    | none => acc
    | some (line, rest) =>
      if containsSub delim line then acc ++ line
      else readAccF fuel rest (acc ++ line)

/-- The builder contents after the loop of `readResponse`, for a stream
delivering `s` and then erroring. -/
def builderStr (s : List Char) : List Char := readAccF (s.length + 1) s []

/-- `readResponse` on a single-chunk stream: strip every delimiter occurrence
from the builder, trim white space, and return with a `nil` error (the Go
function's only `return` statement is `return strings.TrimSpace(full), nil`). -/
def readResponseStr (s : List Char) : List Char × Option Unit :=
  (trimSpace (stripDelim (builderStr s)), none)

/-! ## `readResponse`, chunked view

The underlying `net.Conn` delivers the bytes in chunks; `bufio` buffers
across them.  `readStringDash chunks buf` models `ReadString('-')` with
buffered leftover `buf`: pull chunks until the buffer holds a `'-'` or the
stream errors.  The `Bool` component is true when the read ended in an
error. -/

def readStringDash : List (List Char) → List Char →
    List Char × List Char × List (List Char) × Bool
  | [], buf =>
    match splitAtDash buf with
    | some (l, r) => (l, r, [], false)
    | none => (buf, [], [], true)
  | c :: cs, buf =>
    match splitAtDash buf with
    | some (l, r) => (l, r, c :: cs, false)
    | none => readStringDash cs (buf ++ c)

/-- The read loop of `readResponse` over a chunked stream. -/
def readLoopF : Nat → List (List Char) → List Char → List Char → List Char
  | 0, _, _, acc => acc
  | fuel + 1, chunks, buf, acc =>
    match readStringDash chunks buf with
    | (_, _, _, true) => acc
    | (line, buf', chunks', false) =>
      if containsSub delim line then acc ++ line
      else readLoopF fuel chunks' buf' (acc ++ line)

def totalLen (chunks : List (List Char)) : Nat := (chunks.map List.length).sum

def builderChunked (chunks : List (List Char)) : List Char :=
  readLoopF (totalLen chunks + 1) chunks [] []

/-- `readResponse` on a stream delivered as `chunks` (each element one
underlying read) followed by a read error. -/
def readResponseChunked (chunks : List (List Char)) : List Char × Option Unit :=
  (trimSpace (stripDelim (builderChunked chunks)), none)

/-- The bytes `sendJSONMessage` writes to the connection: the JSON body
produced by `json.Marshal` (passed in abstractly as `body`) immediately
followed by the delimiter, with no other separator. -/
def sendJSONMessageBytes (body : List Char) : List Char := body ++ delim

/-- Does the list end in a dash?  Used to characterise streams whose final
byte is consumed by the last successful `ReadString('-')`. -/
def lastIsDash : List Char → Bool
  | [] => false
  | [c] => c = '-'
  | _ :: c :: rest => lastIsDash (c :: rest)

/-! ## Registry data model

`CubeLink` mirrors the Go struct of the same name; `RegState` bundles the two
process-wide registries `globalCubeList` and `globalCubeLinks`.  The mutexes
are modelled by registry updates being single atomic steps. -/

structure CubeLink where
  jointName : String
  cubeA : String
  cubeB : String
deriving DecidableEq

structure RegState where
  cubes : List String
  links : List CubeLink
deriving DecidableEq

/-- Outcome environment for one `spawnCube` call: whether the dial succeeds,
whether the auth write succeeds, the auth-response stream the server delivers,
and whether the spawn-command write succeeds. -/
structure SpawnEnv where
  dialOk : Bool
  authWriteOk : Bool
  authRespChunks : List (List Char)
  spawnWriteOk : Bool

def spawnSucceeds (env : SpawnEnv) : Bool :=
  env.dialOk && env.authWriteOk && env.spawnWriteOk

/-- Registry effect of `spawnCube`: early return (registry untouched) when the
dial, the auth write, the auth-response read, or the spawn-command write
fails; after the spawn command is sent, append `name ++ "_BASE"` to the cube
registry under the lock.  The auth-response read is checked through the
embedded `readResponse`, whose error component the match inspects exactly as
the Go code checks `err != nil`. -/
def spawnCube (name : String) (env : SpawnEnv) (s : RegState) : RegState :=
  if !env.dialOk then s
  else if !env.authWriteOk then s
  else
    match readResponseChunked env.authRespChunks with
    | (_, some _) => s
    | (_, none) =>
      if !env.spawnWriteOk then s
      else { s with cubes := s.cubes ++ [name ++ "_BASE"] }

/-- The joint name `linkCubeChains` synthesizes:
`fmt.Sprintf("joint_%s_%s_%s", jointType, cubeA, cubeB)`. -/
def jointNameFor (jointType a b : String) : String :=
  "joint_" ++ jointType ++ "_" ++ a ++ "_" ++ b

/-- The links one chain contributes in `linkCubeChains`: the loop
`for i := 0; i < len(chain)-1; i++` appends one link per consecutive pair. -/
def chainLinks (jointType : String) : List String → List CubeLink
  | a :: b :: rest =>
    ⟨jointNameFor jointType a b, a, b⟩ :: chainLinks jointType (b :: rest)
  | _ => []

/-- All links appended by a successful `linkCubeChains` call, chain by chain
in order. -/
def expandChains (jointType : String) (chains : List (List String)) :
    List CubeLink :=
  (chains.map (chainLinks jointType)).flatten

/-- The operations of the program, as far as the registry is concerned.
Constructors carry the outcome of the network interaction where the Go code
branches on it; operations that never touch the registry are grouped by
name. -/
inductive Op where
  | spawn (name : String) (env : SpawnEnv)
  | link (cubeA cubeB jointType jointName : String) (success : Bool)
  | chains (chains : List (List String)) (jointType : String) (success : Bool)
  | linkBodyCubes (pre jointType : String)
  | unfreezeAll
  | despawnAll
  | stiffenAll
  | stiffenBULK
  | setColorBatch
  | findJoint (target : String)
  | rotateJoints (cube : String)

/-- Registry effect of each operation, from the Go sources: `spawnCube` and
`linkCubes` append on success, `linkCubeChains` appends its expansion on
success, and every other operation (including `despawnAllCubes`) leaves both
registries untouched. -/
def applyOp (s : RegState) : Op → RegState
  | .spawn name env => spawnCube name env s
  | .link a b _ jn success =>
    if success then { s with links := s.links ++ [⟨jn, a, b⟩] } else s
  | .chains cs ty success =>
    if success then { s with links := s.links ++ expandChains ty cs } else s
  | .linkBodyCubes _ _ => s
  | .unfreezeAll => s
  | .despawnAll => s
  | .stiffenAll => s
  | .stiffenBULK => s
  | .setColorBatch => s
  | .findJoint _ => s
  | .rotateJoints _ => s

/-- Number of successful appends an operation makes to the cube registry. -/
def cubeAppends : Op → Nat
  | .spawn _ env => if spawnSucceeds env then 1 else 0
  | _ => 0

/-- Number of successful appends an operation makes to the link registry. -/
def linkAppends : Op → Nat
  | .link _ _ _ _ success => if success then 1 else 0
  | .chains cs _ success =>
    if success then (cs.map (fun chain => chain.length - 1)).sum else 0
  | _ => 0

/-- `findClosestJoint`: linear scan of the link registry in creation order,
returning the joint name of the first link either of whose endpoints equals
the target, and the empty string (after a logged diagnostic) when none
does. -/
def findClosestJoint (target : String) : List CubeLink → String
  | [] => ""
  | l :: rest =>
    if l.cubeA == target || l.cubeB == target then l.jointName
    else findClosestJoint target rest

/-! ## Fan-out batches and the WaitGroup barrier

A batch function (`unfreezeAllCubes`, `stiffenAllJoints`, ...) does
`wg.Add(1)` and spawns one goroutine per item, then blocks in `wg.Wait()`.
Each goroutine performs a sequence of network calls, possibly cut short by a
failure, and always runs its deferred `wg.Done()`.  We model this as a
transition system: a state holds the number of remaining steps of every
goroutine (the final step being `Done`), the WaitGroup counter, and whether
the batch function has returned from `Wait`. -/

inductive NetCall where
  | dial
  | authWrite
  | readResp
  | send
deriving DecidableEq

/-- Per-goroutine outcome: the dial fails, the auth write fails, or both
succeed (in which case the auth-response read never fails, and `sendOk` says
whether the subsequent sends succeed). -/
inductive UnitOutcome where
  | connectFail
  | authWriteFail
  | ok (sendOk : Bool)

/-- Network calls performed by one goroutine of `unfreezeAllCubes` (same
shape for `despawnAllCubes`): dial; on success auth write; on success one
response read and one send whose error is ignored.  A failing step ends the
goroutine: no retry. -/
def unfreezeUnitTrace : UnitOutcome → List NetCall
  | .connectFail => [.dial]
  | .authWriteFail => [.dial, .authWrite]
  | .ok _ => [.dial, .authWrite, .readResp, .send]

/-- Network calls of one goroutine of `stiffenAllJoints`: dial, auth write,
auth-response read, then for each of the five stiffening parameters one
`setJointParam` (a send, followed by a response read when the send
succeeded). -/
def stiffenUnitTrace : UnitOutcome → List NetCall
  | .connectFail => [.dial]
  | .authWriteFail => [.dial, .authWrite]
  | .ok sendOk =>
    [.dial, .authWrite, .readResp] ++
      (List.replicate 5
        (if sendOk then [NetCall.send, NetCall.readResp] else [NetCall.send])).flatten

/-- Steps of one unfreeze goroutine: its network calls plus the deferred
`wg.Done()`. -/
def unfreezeSteps (o : UnitOutcome) : Nat := (unfreezeUnitTrace o).length + 1

/-- Steps of one stiffen goroutine: its network calls plus the deferred
`wg.Done()`. -/
def stiffenSteps (o : UnitOutcome) : Nat := (stiffenUnitTrace o).length + 1

/-- State of a fan-out batch of `n` goroutines. -/
structure BState (n : Nat) where
  units : Fin n → Nat
  counter : Nat
  returned : Bool

/-- Number of goroutines that still have steps to run. -/
def livecount {n : Nat} (u : Fin n → Nat) : Nat :=
  (Finset.univ.filter (fun i => 0 < u i)).card

/-- Interleaved execution of a batch: any goroutine with more than one step
left runs a step; a goroutine at its last step runs its deferred `wg.Done()`,
decrementing the counter; the batch function returns from `wg.Wait()` only
when the counter is zero. -/
inductive BStep {n : Nat} : BState n → BState n → Prop
  | work (s : BState n) (i : Fin n) (h : 1 < s.units i) :
      BStep s ⟨Function.update s.units i (s.units i - 1), s.counter, s.returned⟩
  | finishUnit (s : BState n) (i : Fin n) (h : s.units i = 1) :
      BStep s ⟨Function.update s.units i 0, s.counter - 1, s.returned⟩
  | ret (s : BState n) (h : s.counter = 0) :
      BStep s ⟨s.units, s.counter, true⟩

def Reaches {n : Nat} : BState n → BState n → Prop := Relation.ReflTransGen BStep

/-- Initial state of `unfreezeAllCubes` over `n` registered cubes: every
`wg.Add(1)` has run, no goroutine has finished, `wg.Wait()` not yet
returned. -/
def unfreezeInit (n : Nat) (outcomes : Fin n → UnitOutcome) : BState n :=
  ⟨fun i => unfreezeSteps (outcomes i), n, false⟩

/-- Initial state of `stiffenAllJoints` over `n` recorded links. -/
def stiffenInit (n : Nat) (outcomes : Fin n → UnitOutcome) : BState n :=
  ⟨fun i => stiffenSteps (outcomes i), n, false⟩

/-- Terminal state: every goroutine done, counter zero, batch returned. -/
def finalBState (n : Nat) : BState n := ⟨fun _ => 0, 0, true⟩

/-- Invariant tying the WaitGroup counter to the live goroutines. -/
def BInv {n : Nat} (s : BState n) : Prop :=
  s.counter = livecount s.units ∧ (s.returned = true → livecount s.units = 0)

/-! ## Phase plans (control shape of the batch functions)

Each batch function is summarised by the ordered list of control events it
performs: spawning a goroutine per item, waiting on the barrier, returning.
`rotateCubeJoints` is the one function whose plan has no `waitAll`. -/

inductive EngineStep where
  | spawnGo (tag : String)
  | waitAll
  | ret
deriving DecidableEq

def isSpawnGo : EngineStep → Bool
  | .spawnGo _ => true
  | _ => false

/-- The spawn phase of `main`: one goroutine per cube, then `wg.Wait()`. -/
def spawnPhasePlan (cubes : List String) : List EngineStep :=
  cubes.map EngineStep.spawnGo ++ [EngineStep.waitAll, EngineStep.ret]

def unfreezeAllPlan (cubes : List String) : List EngineStep :=
  cubes.map EngineStep.spawnGo ++ [EngineStep.waitAll, EngineStep.ret]

def despawnAllPlan (cubes : List String) : List EngineStep :=
  cubes.map EngineStep.spawnGo ++ [EngineStep.waitAll, EngineStep.ret]

def stiffenAllPlan (links : List CubeLink) : List EngineStep :=
  links.map (fun l => EngineStep.spawnGo l.jointName) ++
    [EngineStep.waitAll, EngineStep.ret]

def stiffenBULKPlan (links : List CubeLink) : List EngineStep :=
  links.map (fun l => EngineStep.spawnGo l.jointName) ++
    [EngineStep.waitAll, EngineStep.ret]

def setMouthColorPlan (cubes : List String) : List EngineStep :=
  cubes.map EngineStep.spawnGo ++ [EngineStep.waitAll, EngineStep.ret]

/-- `rotateCubeJoints`: one goroutine per discovered joint, then return at
once — no `wg.Add`, no `wg.Wait()` anywhere in the function. -/
def rotateCubeJointsPlan (joints : List String) : List EngineStep :=
  joints.map EngineStep.spawnGo ++ [EngineStep.ret]

/-! ## Lemmas about the codec -/

theorem isPrefixOf_exists {p s : List Char} (h : p.isPrefixOf s = true) :
    ∃ t, s = p ++ t := by
  induction p generalizing s with
  | nil => exact ⟨s, rfl⟩
  | cons a p ih =>
    cases s with
    | nil => simp [List.isPrefixOf] at h
    | cons b s =>
      simp only [List.isPrefixOf, Bool.and_eq_true, beq_iff_eq] at h
      obtain ⟨t, ht⟩ := ih h.2
      exact ⟨t, by simp [h.1, ht]⟩

theorem isPrefixOf_of_append (p t : List Char) : p.isPrefixOf (p ++ t) = true := by
  induction p with
  | nil => simp [List.isPrefixOf]
  | cons a p ih => simp [List.isPrefixOf, ih]

theorem containsSub_iff (p s : List Char) :
    containsSub p s = true ↔ ∃ a b, s = a ++ p ++ b := by
  induction s with
  | nil =>
    simp only [containsSub]
    constructor
    · intro h
      obtain ⟨t, ht⟩ := isPrefixOf_exists h
      exact ⟨[], t, ht⟩
    · rintro ⟨a, b, hab⟩
      have ha : a = [] := by
        rcases a with _ | ⟨x, a⟩
        · rfl
        · simp at hab
      subst ha
      have hp : p = [] := by
        rcases p with _ | ⟨x, p⟩
        · rfl
        · simp at hab
      simp [hp, List.isPrefixOf]
  | cons c rest ih =>
    simp only [containsSub, Bool.or_eq_true, ih]
    constructor
    · rintro (h | ⟨a, b, hab⟩)
      · obtain ⟨t, ht⟩ := isPrefixOf_exists h
        exact ⟨[], t, by simpa using ht⟩
      · exact ⟨c :: a, b, by simp [hab]⟩
    · rintro ⟨a, b, hab⟩
      rcases a with _ | ⟨x, a⟩
      · left
        simp only [List.nil_append] at hab
        rw [hab]
        exact isPrefixOf_of_append p b
      · right
        simp only [List.cons_append, List.cons.injEq] at hab
        exact ⟨a, b, hab.2⟩

theorem splitAtDash_some {s l r : List Char} (h : splitAtDash s = some (l, r)) :
    s = l ++ r ∧ List.count '-' l = 1 := by
  induction s generalizing l r with
  | nil => simp [splitAtDash] at h
  | cons c cs ih =>
    rw [splitAtDash] at h
    by_cases hc : c = '-'
    · rw [if_pos hc, Option.some.injEq, Prod.mk.injEq] at h
      obtain ⟨rfl, rfl⟩ := h
      subst hc
      simp
    · rw [if_neg hc] at h
      cases hcs : splitAtDash cs with
      | none => rw [hcs] at h; simp at h
      | some p =>
        rw [hcs] at h
        simp only [Option.map_some', Option.some.injEq, Prod.mk.injEq] at h
        obtain ⟨l2, r2⟩ := p
        obtain ⟨h1, h2⟩ := h
        obtain ⟨hs, hcount⟩ := ih hcs
        subst hs
        rw [← h1, ← h2]
        refine ⟨by simp, ?_⟩
        rw [List.count_cons]
        simp [hcount, hc]

theorem splitAtDash_none {s : List Char} (h : splitAtDash s = none) :
    List.count '-' s = 0 := by
  induction s with
  | nil => simp
  | cons c cs ih =>
    rw [splitAtDash] at h
    by_cases hc : c = '-'
    · rw [if_pos hc] at h; simp at h
    · rw [if_neg hc] at h
      cases hcs : splitAtDash cs with
      | none => rw [List.count_cons]; simp [ih hcs, hc]
      | some p => rw [hcs] at h; simp at h

/-- The sentinel check `strings.Contains(line, delimiter)` in the read loop
can never fire: every line produced by `ReadString('-')` contains exactly one
dash, while the delimiter ends in three consecutive dashes. -/
theorem sentinel_break_never_fires {s l r : List Char}
    (h : splitAtDash s = some (l, r)) : containsSub delim l = false := by
  obtain ⟨-, hcount⟩ := splitAtDash_some h
  by_contra hcon
  rw [Bool.not_eq_false, containsSub_iff] at hcon
  obtain ⟨a, b, hab⟩ := hcon
  have : List.count '-' l = List.count '-' a + List.count '-' delim + List.count '-' b := by
    rw [hab, List.count_append, List.count_append]
  have hdelim : List.count '-' delim = 3 := by decide
  omega

theorem splitAtDash_append_some {a l r : List Char} (b : List Char)
    (h : splitAtDash a = some (l, r)) : splitAtDash (a ++ b) = some (l, r ++ b) := by
  induction a generalizing l r with
  | nil => simp [splitAtDash] at h
  | cons c cs ih =>
    rw [splitAtDash] at h
    rw [List.cons_append, splitAtDash]
    by_cases hc : c = '-'
    · rw [if_pos hc] at h ⊢
      rw [Option.some.injEq, Prod.mk.injEq] at h
      obtain ⟨rfl, rfl⟩ := h
      rfl
    · rw [if_neg hc] at h ⊢
      cases hcs : splitAtDash cs with
      | none => rw [hcs] at h; simp at h
      | some p =>
        rw [hcs] at h
        simp only [Option.map_some', Option.some.injEq, Prod.mk.injEq] at h
        obtain ⟨l2, r2⟩ := p
        obtain ⟨h1, h2⟩ := h
        rw [ih hcs, Option.map_some']
        rw [← h1, ← h2]

theorem splitAtDash_append_none {a : List Char} (b : List Char)
    (h : splitAtDash a = none) :
    splitAtDash (a ++ b) = (splitAtDash b).map (fun p => (a ++ p.1, p.2)) := by
  induction a with
  | nil => simp
  | cons c cs ih =>
    rw [splitAtDash] at h
    rw [List.cons_append, splitAtDash]
    by_cases hc : c = '-'
    · rw [if_pos hc] at h; simp at h
    · rw [if_neg hc] at h ⊢
      cases hcs : splitAtDash cs with
      | none =>
        rw [ih hcs]
        cases splitAtDash b with
        | none => simp
        | some p => simp
      | some p => rw [hcs] at h; simp at h

theorem lastIsDash_append {r : List Char} (l : List Char) (hr : r ≠ []) :
    lastIsDash (l ++ r) = lastIsDash r := by
  induction l with
  | nil => rfl
  | cons c l ih =>
    rw [List.cons_append]
    cases hl : l ++ r with
    | nil =>
      exact absurd (List.append_eq_nil.mp hl).2 hr
    | cons d t =>
      rw [lastIsDash, ← hl, ih]

theorem lastIsDash_mem {s : List Char} (h : lastIsDash s = true) : '-' ∈ s := by
  induction s with
  | nil => simp [lastIsDash] at h
  | cons c cs ih =>
    cases cs with
    | nil =>
      rw [lastIsDash] at h
      simp only [decide_eq_true_eq] at h
      simp [h]
    | cons d t =>
      rw [lastIsDash] at h
      exact List.mem_cons_of_mem c (ih h)

theorem splitAtDash_isSome_of_mem {s : List Char} (h : '-' ∈ s) :
    ∃ l r, splitAtDash s = some (l, r) := by
  induction s with
  | nil => simp at h
  | cons c cs ih =>
    rw [splitAtDash]
    by_cases hc : c = '-'
    · exact ⟨[c], cs, by rw [if_pos hc]⟩
    · have : '-' ∈ cs := by
        rcases List.mem_cons.mp h with h1 | h1
        · exact absurd h1.symm hc
        · exact h1
      obtain ⟨l, r, hlr⟩ := ih this
      exact ⟨c :: l, r, by rw [if_neg hc, hlr, Option.map_some']⟩

/-- Step equation for `readAccF` when `ReadString` succeeds. -/
theorem readAccF_step_some {s l r : List Char} (hsplit : splitAtDash s = some (l, r))
    (f : Nat) (acc : List Char) :
    readAccF (f + 1) s acc =
      if containsSub delim l then acc ++ l else readAccF f r (acc ++ l) := by
  rw [readAccF, hsplit]

/-- Step equation for `readAccF` when `ReadString` errors. -/
theorem readAccF_step_none {s : List Char} (hsplit : splitAtDash s = none)
    (f : Nat) (acc : List Char) : readAccF (f + 1) s acc = acc := by
  rw [readAccF, hsplit]

theorem readStringDash_nil_some {buf l r : List Char}
    (h : splitAtDash buf = some (l, r)) :
    readStringDash [] buf = (l, r, [], false) := by
  rw [readStringDash, h]

theorem readStringDash_nil_none {buf : List Char} (h : splitAtDash buf = none) :
    readStringDash [] buf = (buf, [], [], true) := by
  rw [readStringDash, h]

theorem readStringDash_cons_some {buf l r : List Char} (c : List Char)
    (cs : List (List Char)) (h : splitAtDash buf = some (l, r)) :
    readStringDash (c :: cs) buf = (l, r, c :: cs, false) := by
  rw [readStringDash, h]

theorem readStringDash_cons_none {buf : List Char} (c : List Char)
    (cs : List (List Char)) (h : splitAtDash buf = none) :
    readStringDash (c :: cs) buf = readStringDash cs (buf ++ c) := by
  rw [readStringDash, h]

/-- When the stream's data ends in a dash, the read loop of `readResponse`
accumulates the whole stream into the builder: the sentinel break never fires
(`sentinel_break_never_fires`) and the final erroring read returns no data. -/
theorem readAccF_all : ∀ (fuel : Nat) (s acc : List Char), s.length < fuel →
    lastIsDash s = true → readAccF fuel s acc = acc ++ s := by
  intro fuel
  induction fuel with
  | zero => intro s acc h; omega
  | succ f ih =>
    intro s acc hlen hdash
    obtain ⟨l, r, hsplit⟩ := splitAtDash_isSome_of_mem (lastIsDash_mem hdash)
    rw [readAccF_step_some hsplit]
    rw [if_neg (by rw [sentinel_break_never_fires hsplit]; exact Bool.false_ne_true)]
    obtain ⟨hs, hcount⟩ := splitAtDash_some hsplit
    have hl : l ≠ [] := by
      intro hnil
      rw [hnil] at hcount
      simp at hcount
    cases hr : r with
    | nil =>
      subst hr
      have hempty : ∀ g acc2, readAccF g ([] : List Char) acc2 = acc2 := by
        intro g acc2
        cases g with
        | zero => rfl
        | succ g2 => exact @readAccF_step_none [] (by rfl) g2 acc2
      rw [hempty, hs, List.append_nil]
    | cons d t =>
      rw [← hr]
      have hrd : lastIsDash r = true := by
        rw [hs, lastIsDash_append l (by rw [hr]; exact List.cons_ne_nil d t)] at hdash
        exact hdash
      rw [ih r (acc ++ l) (by
        have h1 : s.length = l.length + r.length := by rw [hs]; simp
        have h2 : 0 < l.length := List.length_pos.mpr hl
        omega) hrd]
      rw [hs, List.append_assoc]

/-- `readStringDash` behaves like `splitAtDash` on the flattened stream
(successful-read case). -/
theorem readStringDash_some : ∀ (chunks : List (List Char)) (buf l r : List Char),
    splitAtDash (buf ++ chunks.flatten) = some (l, r) →
    ∃ buf2 chunks2, readStringDash chunks buf = (l, buf2, chunks2, false) ∧
      buf2 ++ chunks2.flatten = r := by
  intro chunks
  induction chunks with
  | nil =>
    intro buf l r h
    rw [List.flatten_nil, List.append_nil] at h
    exact ⟨r, [], readStringDash_nil_some h, by simp⟩
  | cons c cs ih =>
    intro buf l r h
    cases hb : splitAtDash buf with
    | some p =>
      obtain ⟨l0, r0⟩ := p
      have := splitAtDash_append_some (c :: cs).flatten hb
      rw [this, Option.some.injEq, Prod.mk.injEq] at h
      exact ⟨r0, c :: cs, by rw [readStringDash_cons_some c cs hb, h.1],
        by rw [h.2]⟩
    | none =>
      rw [List.flatten_cons, ← List.append_assoc] at h
      rw [readStringDash_cons_none c cs hb]
      obtain ⟨buf2, chunks2, h1, h2⟩ := ih (buf ++ c) l r h
      exact ⟨buf2, chunks2, h1, h2⟩

/-- `readStringDash` behaves like `splitAtDash` on the flattened stream
(erroring-read case). -/
theorem readStringDash_none : ∀ (chunks : List (List Char)) (buf : List Char),
    splitAtDash (buf ++ chunks.flatten) = none →
    readStringDash chunks buf = (buf ++ chunks.flatten, [], [], true) := by
  intro chunks
  induction chunks with
  | nil =>
    intro buf h
    rw [List.flatten_nil, List.append_nil] at h ⊢
    exact readStringDash_nil_none h
  | cons c cs ih =>
    intro buf h
    cases hb : splitAtDash buf with
    | some p =>
      obtain ⟨l0, r0⟩ := p
      rw [splitAtDash_append_some (c :: cs).flatten hb] at h
      exact absurd h (by simp)
    | none =>
      rw [List.flatten_cons, ← List.append_assoc] at h ⊢
      rw [readStringDash_cons_none c cs hb]
      exact ih (buf ++ c) h

/-- Step equations for `readLoopF`. -/
theorem readLoopF_step_err {chunks : List (List Char)} {buf line : List Char}
    (h : readStringDash chunks buf = (line, [], [], true)) (f : Nat)
    (acc : List Char) : readLoopF (f + 1) chunks buf acc = acc := by
  rw [readLoopF, h]

theorem readLoopF_step_ok {chunks chunks2 : List (List Char)}
    {buf line buf2 : List Char}
    (h : readStringDash chunks buf = (line, buf2, chunks2, false)) (f : Nat)
    (acc : List Char) :
    readLoopF (f + 1) chunks buf acc =
      if containsSub delim line then acc ++ line
      else readLoopF f chunks2 buf2 (acc ++ line) := by
  rw [readLoopF, h]

/-- The chunked read loop equals the single-string read loop on the
concatenation of the chunks: `bufio` makes chunk boundaries invisible. -/
theorem readLoopF_eq_readAccF : ∀ (fuel : Nat) (chunks : List (List Char))
    (buf acc : List Char),
    readLoopF fuel chunks buf acc = readAccF fuel (buf ++ chunks.flatten) acc := by
  intro fuel
  induction fuel with
  | zero => intro chunks buf acc; rfl
  | succ f ih =>
    intro chunks buf acc
    cases h : splitAtDash (buf ++ chunks.flatten) with
    | none =>
      rw [readLoopF_step_err (readStringDash_none chunks buf h),
        readAccF_step_none h]
    | some p =>
      obtain ⟨l, r⟩ := p
      obtain ⟨buf2, chunks2, hrun, hflat⟩ := readStringDash_some chunks buf l r h
      rw [readLoopF_step_ok hrun, readAccF_step_some h]
      by_cases hc : containsSub delim l = true
      · rw [if_pos hc, if_pos hc]
      · rw [if_neg hc, if_neg hc, ih, hflat]

theorem totalLen_eq_flatten_length (chunks : List (List Char)) :
    totalLen chunks = chunks.flatten.length := by
  rw [totalLen, List.length_flatten]

theorem builderChunked_eq (chunks : List (List Char)) :
    builderChunked chunks = builderStr chunks.flatten := by
  rw [builderChunked, builderStr, readLoopF_eq_readAccF, List.nil_append,
    totalLen_eq_flatten_length]

theorem stripDelimF_nil : ∀ fuel, stripDelimF fuel [] = [] := by
  intro fuel
  cases fuel <;> rfl

/-- The result of `stripDelimF` does not depend on the fuel, as long as the
fuel covers the length of the input. -/
theorem stripDelimF_fuel_irrelevant : ∀ (f g : Nat) (s : List Char),
    s.length ≤ f → s.length ≤ g → stripDelimF f s = stripDelimF g s := by
  intro f
  induction f with
  | zero =>
    intro g s hf _
    have : s = [] := List.length_eq_zero.mp (Nat.le_zero.mp hf)
    rw [this, stripDelimF_nil, stripDelimF_nil]
  | succ f ih =>
    intro g s hf hg
    cases s with
    | nil => rw [stripDelimF_nil, stripDelimF_nil]
    | cons c rest =>
      cases g with
      | zero => simp at hg
      | succ g2 =>
        rw [stripDelimF, stripDelimF]
        by_cases hp : delim.isPrefixOf (c :: rest) = true
        · rw [if_pos hp, if_pos hp]
          exact ih g2 (rest.drop 13)
            (by rw [List.length_drop]; simp at hf; omega)
            (by rw [List.length_drop]; simp at hg; omega)
        · rw [if_neg hp, if_neg hp,
            ih g2 rest (by simp at hf; omega) (by simp at hg; omega)]

/-- The delimiter cannot straddle the boundary between a delimiter-free body
and an appended delimiter; checked for every possible overlap length. -/
theorem delim_no_straddle :
    ∀ k, k < 14 → 1 ≤ k → delim.isPrefixOf (List.take k delim ++ delim) = false := by
  decide

/-- Stripping the delimiter from `body ++ delimiter` recovers `body`, for a
body with no delimiter occurrence. -/
theorem stripDelimF_append_delim : ∀ (body : List Char) (fuel : Nat),
    body.length + 14 ≤ fuel → containsSub delim body = false →
    stripDelimF fuel (body ++ delim) = body := by
  intro body
  induction body with
  | nil =>
    intro fuel hfuel _
    obtain ⟨f, rfl⟩ : ∃ f, fuel = f + 1 := ⟨fuel - 1, by omega⟩
    rw [List.nil_append]
    show stripDelimF (f + 1)
      ['<', '?', '?', '?', 'D', 'O', 'N', 'E', '?', '?', '?', '-', '-', '-'] = []
    rw [stripDelimF, if_pos (by decide)]
    show stripDelimF f [] = []
    exact stripDelimF_nil f
  | cons c body ih =>
    intro fuel hfuel hno
    obtain ⟨f, rfl⟩ : ∃ f, fuel = f + 1 := ⟨fuel - 1, by omega⟩
    have hdlen : delim.length = 14 := by decide
    have hnohead : delim.isPrefixOf (c :: body) = false ∧
        containsSub delim body = false := by
      rw [containsSub, Bool.or_eq_false_iff] at hno
      exact hno
    have hp : delim.isPrefixOf ((c :: body) ++ delim) = false := by
      by_contra hcon
      rw [Bool.not_eq_false] at hcon
      obtain ⟨t, ht⟩ := isPrefixOf_exists hcon
      by_cases hlen : (c :: body).length < 14
      · have h1 : List.take (c :: body).length ((c :: body) ++ delim) = c :: body :=
          List.take_left _ _
        have h2 : List.take (c :: body).length (delim ++ t) =
            List.take (c :: body).length delim :=
          List.take_append_of_le_length (by omega)
        rw [ht, h2] at h1
        have hfalse := delim_no_straddle (c :: body).length hlen (by simp)
        rw [h1, hcon] at hfalse
        exact absurd hfalse (by simp)
      · have h1 : List.take 14 ((c :: body) ++ delim) = List.take 14 (c :: body) :=
          List.take_append_of_le_length (by omega)
        have h2 : List.take 14 (delim ++ t) = delim := by
          rw [← hdlen, List.take_left]
        rw [ht, h2] at h1
        have : containsSub delim (c :: body) = true := by
          rw [containsSub_iff]
          exact ⟨[], List.drop 14 (c :: body), by
            rw [List.nil_append, h1, List.take_append_drop]⟩
        rw [hno] at this
        exact absurd this (by simp)
    have hneg : ¬(delim.isPrefixOf (c :: (body ++ delim)) = true) := by
      rw [← List.cons_append]
      intro h2
      rw [hp] at h2
      exact Bool.false_ne_true h2
    rw [List.cons_append, stripDelimF, if_neg hneg]
    rw [ih f (by simp only [List.length_cons] at hfuel; omega) hnohead.2]

/-! ## Lemmas about the barrier transition system -/

theorem livecount_update_pos {n : Nat} (u : Fin n → Nat) (i : Fin n) (v : Nat)
    (hold : 0 < u i) (hv : 0 < v) :
    livecount (Function.update u i v) = livecount u := by
  unfold livecount
  congr 1
  apply Finset.filter_congr
  intro x _
  by_cases hx : x = i
  · subst hx
    simp [Function.update_same, hv, hold]
  · simp [Function.update_noteq hx]

theorem livecount_update_zero {n : Nat} (u : Fin n → Nat) (i : Fin n)
    (hold : 0 < u i) :
    livecount (Function.update u i 0) = livecount u - 1 := by
  unfold livecount
  have hset : Finset.univ.filter (fun x => 0 < Function.update u i 0 x)
      = (Finset.univ.filter (fun x => 0 < u x)).erase i := by
    ext x
    simp only [Finset.mem_filter, Finset.mem_erase, Finset.mem_univ, true_and]
    by_cases hx : x = i
    · subst hx
      simp [Function.update_same]
    · simp [Function.update_noteq hx, hx]
  rw [hset, Finset.card_erase_of_mem (by simp [Finset.mem_filter, hold])]

theorem livecount_zero {n : Nat} {u : Fin n → Nat} (h : livecount u = 0) :
    ∀ i, u i = 0 := by
  intro i
  by_contra hne
  have hpos : 0 < u i := Nat.pos_of_ne_zero hne
  have hmem : i ∈ Finset.univ.filter (fun x => 0 < u x) := by simp [hpos]
  unfold livecount at h
  rw [Finset.card_eq_zero] at h
  rw [h] at hmem
  exact absurd hmem (Finset.not_mem_empty i)

theorem livecount_of_all_pos {n : Nat} (u : Fin n → Nat) (h : ∀ i, 0 < u i) :
    livecount u = n := by
  unfold livecount
  rw [Finset.filter_true_of_mem (fun i _ => h i), Finset.card_univ,
    Fintype.card_fin]

theorem BStep_preserves {n : Nat} {s t : BState n} (hst : BStep s t)
    (hs : BInv s) : BInv t := by
  cases hst with
  | work i h =>
    refine ⟨?_, ?_⟩
    · show s.counter = livecount (Function.update s.units i (s.units i - 1))
      rw [livecount_update_pos s.units i _ (by omega) (by omega)]
      exact hs.1
    · intro hret
      have h0 := livecount_zero (hs.2 hret) i
      omega
  | finishUnit i h =>
    refine ⟨?_, ?_⟩
    · show s.counter - 1 = livecount (Function.update s.units i 0)
      rw [livecount_update_zero s.units i (by omega), hs.1]
    · intro hret
      have h0 := livecount_zero (hs.2 hret) i
      omega
  | ret h =>
    exact ⟨hs.1, fun _ => by rw [← hs.1, h]⟩

theorem Reaches_inv {n : Nat} {s t : BState n} (h : Reaches s t) (hs : BInv s) :
    BInv t := by
  induction h with
  | refl => exact hs
  | tail _ hstep ih => exact BStep_preserves hstep ih

/-- From a state where every goroutine is finished, the batch can return. -/
theorem ret_step_final {n : Nat} (u : Fin n → Nat) (h : ∀ i, u i = 0) :
    Reaches ⟨u, livecount u, false⟩ (finalBState n) := by
  have hu : u = fun _ => 0 := funext h
  subst hu
  have hlive : livecount (fun _ => (0 : Nat) : Fin n → Nat) = 0 := by
    by_contra hne
    have hpos : 0 < livecount (fun _ => (0 : Nat) : Fin n → Nat) :=
      Nat.pos_of_ne_zero hne
    rw [livecount] at hpos
    rw [Finset.card_pos] at hpos
    obtain ⟨i, hi⟩ := hpos
    simp at hi
  rw [hlive]
  exact Relation.ReflTransGen.single (BStep.ret ⟨fun _ => 0, 0, false⟩ rfl)

/-- Any batch, whatever the per-goroutine outcomes, can run to completion:
goroutines run their remaining steps in some order, each executes its
deferred `wg.Done()`, and finally the wait returns. -/
theorem run_to_final : ∀ (fuel : Nat) {n : Nat} (u : Fin n → Nat),
    (∑ i, u i) ≤ fuel → Reaches ⟨u, livecount u, false⟩ (finalBState n) := by
  intro fuel
  induction fuel with
  | zero =>
    intro n u hsum
    refine ret_step_final u ?_
    intro i
    have := Finset.sum_eq_zero_iff.mp (Nat.le_zero.mp hsum) i (Finset.mem_univ i)
    exact this
  | succ f ih =>
    intro n u hsum
    by_cases hall : ∀ i, u i = 0
    · exact ret_step_final u hall
    · push_neg at hall
      obtain ⟨i, hi⟩ := hall
      have hpos : 0 < u i := Nat.pos_of_ne_zero hi
      have hsum2 := Finset.add_sum_erase Finset.univ u (Finset.mem_univ i)
      by_cases h1 : u i = 1
      · have hstep : BStep ⟨u, livecount u, false⟩
            ⟨Function.update u i 0, livecount u - 1, false⟩ :=
          BStep.finishUnit ⟨u, livecount u, false⟩ i h1
        refine Relation.ReflTransGen.head hstep ?_
        have hlc : livecount u - 1 = livecount (Function.update u i 0) :=
          (livecount_update_zero u i hpos).symm
        rw [hlc]
        refine ih (Function.update u i 0) ?_
        have hupd := Finset.sum_update_of_mem (Finset.mem_univ i) u 0
        rw [← Finset.erase_eq] at hupd
        omega
      · have hstep : BStep ⟨u, livecount u, false⟩
            ⟨Function.update u i (u i - 1), livecount u, false⟩ :=
          BStep.work ⟨u, livecount u, false⟩ i (by show 1 < u i; omega)
        refine Relation.ReflTransGen.head hstep ?_
        have hlc : livecount u = livecount (Function.update u i (u i - 1)) :=
          (livecount_update_pos u i (u i - 1) hpos (by omega)).symm
        rw [hlc]
        refine ih (Function.update u i (u i - 1)) ?_
        have hupd := Finset.sum_update_of_mem (Finset.mem_univ i) u (u i - 1)
        rw [← Finset.erase_eq] at hupd
        omega

/-! ## Lemmas about the registry -/

/-- `spawnCube` appends exactly when dial, auth write and spawn write all
succeed (the auth-response read, going through `readResponse`, never fails). -/
theorem spawnCube_eq (name : String) (env : SpawnEnv) (s : RegState) :
    spawnCube name env s =
      if spawnSucceeds env then { s with cubes := s.cubes ++ [name ++ "_BASE"] }
      else s := by
  rw [spawnCube, spawnSucceeds]
  cases env.dialOk <;> cases env.authWriteOk <;> cases env.spawnWriteOk <;>
    simp [readResponseChunked]

theorem chainLinks_eq_zip (jointType : String) : ∀ chain : List String,
    chainLinks jointType chain =
      (chain.zip chain.tail).map
        (fun p => ⟨jointNameFor jointType p.1 p.2, p.1, p.2⟩) := by
  intro chain
  induction chain with
  | nil => rfl
  | cons a rest ih =>
    cases rest with
    | nil => rfl
    | cons b rest2 =>
      rw [chainLinks, ih]
      rfl

theorem chainLinks_length (jointType : String) : ∀ chain : List String,
    (chainLinks jointType chain).length = chain.length - 1 := by
  intro chain
  induction chain with
  | nil => rfl
  | cons a rest ih =>
    cases rest with
    | nil => rfl
    | cons b rest2 =>
      rw [chainLinks]
      simp only [List.length_cons]
      rw [ih]
      simp only [List.length_cons]
      omega

theorem expandChains_length (jointType : String) (cs : List (List String)) :
    (expandChains jointType cs).length =
      (cs.map (fun chain => chain.length - 1)).sum := by
  induction cs with
  | nil => rfl
  | cons c cs ih =>
    rw [expandChains, List.map_cons, List.flatten_cons, List.length_append,
      List.map_cons, List.sum_cons, chainLinks_length]
    rw [expandChains] at ih
    rw [ih]

theorem applyOp_cubes_len (s : RegState) (op : Op) :
    (applyOp s op).cubes.length = s.cubes.length + cubeAppends op := by
  cases op with
  | spawn name env =>
    show (spawnCube name env s).cubes.length = _
    rw [spawnCube_eq, cubeAppends]
    by_cases hs : spawnSucceeds env = true
    · rw [if_pos hs, if_pos hs]
      simp
    · rw [if_neg hs, if_neg hs]
      simp
  | link a b ty jn success => cases success <;> simp [applyOp, cubeAppends]
  | chains cs ty success => cases success <;> simp [applyOp, cubeAppends]
  | linkBodyCubes p ty => simp [applyOp, cubeAppends]
  | unfreezeAll => simp [applyOp, cubeAppends]
  | despawnAll => simp [applyOp, cubeAppends]
  | stiffenAll => simp [applyOp, cubeAppends]
  | stiffenBULK => simp [applyOp, cubeAppends]
  | setColorBatch => simp [applyOp, cubeAppends]
  | findJoint t => simp [applyOp, cubeAppends]
  | rotateJoints c => simp [applyOp, cubeAppends]

theorem applyOp_links_len (s : RegState) (op : Op) :
    (applyOp s op).links.length = s.links.length + linkAppends op := by
  cases op with
  | spawn name env =>
    show (spawnCube name env s).links.length = s.links.length + 0
    rw [spawnCube_eq]
    by_cases hs : spawnSucceeds env = true
    · rw [if_pos hs]
      simp
    · rw [if_neg hs]
      simp
  | link a b ty jn success => cases success <;> simp [applyOp, linkAppends]
  | chains cs ty success =>
    cases success <;> simp [applyOp, linkAppends, expandChains_length]
  | linkBodyCubes p ty => simp [applyOp, linkAppends]
  | unfreezeAll => simp [applyOp, linkAppends]
  | despawnAll => simp [applyOp, linkAppends]
  | stiffenAll => simp [applyOp, linkAppends]
  | stiffenBULK => simp [applyOp, linkAppends]
  | setColorBatch => simp [applyOp, linkAppends]
  | findJoint t => simp [applyOp, linkAppends]
  | rotateJoints c => simp [applyOp, linkAppends]

theorem applyOp_extends (s : RegState) (op : Op) :
    (∃ t, (applyOp s op).cubes = s.cubes ++ t)
      ∧ ∃ t, (applyOp s op).links = s.links ++ t := by
  cases op with
  | spawn name env =>
    constructor
    · show ∃ t, (spawnCube name env s).cubes = s.cubes ++ t
      rw [spawnCube_eq]
      by_cases hs : spawnSucceeds env = true
      · rw [if_pos hs]
        exact ⟨[name ++ "_BASE"], rfl⟩
      · rw [if_neg hs]
        exact ⟨[], by simp⟩
    · show ∃ t, (spawnCube name env s).links = s.links ++ t
      rw [spawnCube_eq]
      by_cases hs : spawnSucceeds env = true
      · rw [if_pos hs]
        exact ⟨[], by simp⟩
      · rw [if_neg hs]
        exact ⟨[], by simp⟩
  | link a b ty jn success =>
    cases success with
    | true =>
      exact ⟨⟨[], by simp [applyOp]⟩, ⟨[⟨jn, a, b⟩], by simp [applyOp]⟩⟩
    | false =>
      exact ⟨⟨[], by simp [applyOp]⟩, ⟨[], by simp [applyOp]⟩⟩
  | chains cs ty success =>
    cases success with
    | true =>
      exact ⟨⟨[], by simp [applyOp]⟩, ⟨expandChains ty cs, by simp [applyOp]⟩⟩
    | false =>
      exact ⟨⟨[], by simp [applyOp]⟩, ⟨[], by simp [applyOp]⟩⟩
  | linkBodyCubes p ty => exact ⟨⟨[], by simp [applyOp]⟩, ⟨[], by simp [applyOp]⟩⟩
  | unfreezeAll => exact ⟨⟨[], by simp [applyOp]⟩, ⟨[], by simp [applyOp]⟩⟩
  | despawnAll => exact ⟨⟨[], by simp [applyOp]⟩, ⟨[], by simp [applyOp]⟩⟩
  | stiffenAll => exact ⟨⟨[], by simp [applyOp]⟩, ⟨[], by simp [applyOp]⟩⟩
  | stiffenBULK => exact ⟨⟨[], by simp [applyOp]⟩, ⟨[], by simp [applyOp]⟩⟩
  | setColorBatch => exact ⟨⟨[], by simp [applyOp]⟩, ⟨[], by simp [applyOp]⟩⟩
  | findJoint t => exact ⟨⟨[], by simp [applyOp]⟩, ⟨[], by simp [applyOp]⟩⟩
  | rotateJoints c => exact ⟨⟨[], by simp [applyOp]⟩, ⟨[], by simp [applyOp]⟩⟩

theorem foldl_applyOp_len (ops : List Op) : ∀ s : RegState,
    (ops.foldl applyOp s).cubes.length = s.cubes.length + (ops.map cubeAppends).sum
      ∧ (ops.foldl applyOp s).links.length =
        s.links.length + (ops.map linkAppends).sum := by
  induction ops with
  | nil => intro s; simp
  | cons op ops ih =>
    intro s
    rw [List.foldl_cons, List.map_cons, List.sum_cons, List.map_cons,
      List.sum_cons]
    obtain ⟨h1, h2⟩ := ih (applyOp s op)
    rw [h1, h2, applyOp_cubes_len, applyOp_links_len]
    constructor <;> omega

theorem findClosestJoint_eq_find (target : String) : ∀ links : List CubeLink,
    findClosestJoint target links =
      (match links.find? (fun l => l.cubeA == target || l.cubeB == target) with
        | some l => l.jointName
        | none => "") := by
  intro links
  induction links with
  | nil => rfl
  | cons l rest ih =>
    rw [findClosestJoint]
    by_cases hc : (l.cubeA == target || l.cubeB == target) = true
    · rw [if_pos hc,
        @List.find?_cons_of_pos _ (fun k => k.cubeA == target || k.cubeB == target)
          l rest hc]
    · rw [if_neg hc,
        @List.find?_cons_of_neg _ (fun k => k.cubeA == target || k.cubeB == target)
          l rest hc, ih]

/-! ## The claims -/

/-- C1: for every connection and every sequence of bytes delivered by the
stream — including a stream that errors or times out before any sentinel is
seen — `readResponse` returns the accumulated text (the dash-terminated
chunks read before the stream erred, with every occurrence of the sentinel
stripped and surrounding whitespace trimmed, possibly empty) together with a
nil error value; it never returns a non-nil error, so the caller receives no
error signal. -/
theorem readResponse_never_errors (chunks : List (List Char)) :
    readResponseChunked chunks =
      (trimSpace (stripDelim (builderStr chunks.flatten)), none) := by
  rw [readResponseChunked, builderChunked_eq]

/-- C2 (evaluation at the failing input): on the stream that delivers
`A<???DONE???---B-` and then errors, the decode loop does not stop when the
sentinel has been observed: the builder accumulates the entire stream,
including the `B-` that arrives after the sentinel, and the decoded payload
is `AB-` rather than `A`.  (`ReadString('-')` returns chunks holding exactly
one dash, while the sentinel ends in three consecutive dashes, so the
`strings.Contains(line, delimiter)` break can never fire — see
`sentinel_break_never_fires`.) -/
theorem readResponse_reads_past_sentinel :
    builderStr ("A<???DONE???---B-".data) = "A<???DONE???---B-".data
      ∧ readResponseStr ("A<???DONE???---B-".data) = ("AB-".data, none) :=
  ⟨by decide, by decide⟩

/-- C3: framing round-trip.  For every JSON body (the `json.Marshal` output of
a command map) that contains no occurrence of the sentinel and carries no
surrounding whitespace — both true of `json.Marshal` output of a command
map — feeding the bytes produced by `sendJSONMessage` to `readResponse`
returns exactly the original body (and a nil error), hence a JSON document
equal to the original command. -/
theorem sendJSON_readResponse_roundtrip (body : List Char)
    (hno : containsSub delim body = false) (htrim : trimSpace body = body) :
    readResponseStr (sendJSONMessageBytes body) = (body, none) := by
  rw [readResponseStr, sendJSONMessageBytes]
  have hlast : lastIsDash (body ++ delim) = true := by
    rw [lastIsDash_append body (by decide)]
    decide
  have hbuilder : builderStr (body ++ delim) = body ++ delim := by
    rw [builderStr, readAccF_all _ _ [] (Nat.lt_succ_self _) hlast,
      List.nil_append]
  rw [hbuilder]
  have hstrip : stripDelim (body ++ delim) = body := by
    rw [stripDelim]
    refine stripDelimF_append_delim body _ ?_ hno
    rw [List.length_append]
    have : delim.length = 14 := by decide
    omega
  rw [hstrip, htrim]

/-- Witness for C3 at the concrete command body `{"ok":1}`. -/
theorem sendJSON_readResponse_roundtrip_witness :
    containsSub delim ("\x7b\"ok\":1\x7d".data) = false
      ∧ trimSpace ("\x7b\"ok\":1\x7d".data) = "\x7b\"ok\":1\x7d".data
      ∧ readResponseStr (sendJSONMessageBytes ("\x7b\"ok\":1\x7d".data)) =
        ("\x7b\"ok\":1\x7d".data, none) :=
  ⟨by decide, by decide,
    sendJSON_readResponse_roundtrip ("\x7b\"ok\":1\x7d".data) (by decide)
      (by decide)⟩

/-- C4: sentinel-split resilience.  Delivering any byte sequence to
`readResponse` in arbitrarily small chunks (each list element being one
underlying read, down to one byte each) yields the same decoded result as
delivering the whole sequence in a single chunk: `bufio` buffering makes
chunk boundaries invisible to the decode loop. -/
theorem readResponse_chunking_irrelevant (chunks : List (List Char)) :
    readResponseChunked chunks = readResponseChunked [chunks.flatten] := by
  rw [readResponseChunked, readResponseChunked, builderChunked_eq,
    builderChunked_eq, List.flatten_cons, List.flatten_nil, List.append_nil]

/-- C5: barrier completion and failure isolation.  For a fan-out batch of `n`
goroutines (`unfreezeAllCubes` over `n` registered cubes, `stiffenAllJoints`
over `n` recorded links): (1, 2) in every interleaved execution, if the batch
function has returned from `wg.Wait()` then every goroutine has run all its
steps including its deferred `wg.Done()` — the barrier releases only after
all `n` units reach a terminal state; (3) whatever the per-unit outcomes
(connect failure, auth-write failure, or success), the batch runs to
completion — a failing unit neither cancels its siblings nor blocks or fails
the batch; (4) a failed unit dials exactly once (no retry), and every unit,
failed or not, has at least its `Done` step, so failures never remove a unit
from the barrier. -/
theorem batch_barrier_and_isolation :
    (∀ (n : Nat) (outcomes : Fin n → UnitOutcome) (s : BState n),
        Reaches (unfreezeInit n outcomes) s → s.returned = true →
          ∀ i, s.units i = 0)
      ∧ (∀ (n : Nat) (outcomes : Fin n → UnitOutcome) (s : BState n),
          Reaches (stiffenInit n outcomes) s → s.returned = true →
            ∀ i, s.units i = 0)
      ∧ (∀ (n : Nat) (outcomes : Fin n → UnitOutcome),
          Reaches (unfreezeInit n outcomes) (finalBState n)
            ∧ Reaches (stiffenInit n outcomes) (finalBState n))
      ∧ ∀ o : UnitOutcome,
          (unfreezeUnitTrace o).count NetCall.dial = 1
            ∧ (stiffenUnitTrace o).count NetCall.dial = 1
            ∧ 1 ≤ unfreezeSteps o ∧ 1 ≤ stiffenSteps o := by
  have hinvU : ∀ (n : Nat) (outcomes : Fin n → UnitOutcome),
      BInv (unfreezeInit n outcomes) := by
    intro n outcomes
    constructor
    · show n = livecount (fun i => unfreezeSteps (outcomes i))
      rw [livecount_of_all_pos _ (fun i => by rw [unfreezeSteps]; omega)]
    · intro h
      exact absurd h Bool.false_ne_true
  have hinvS : ∀ (n : Nat) (outcomes : Fin n → UnitOutcome),
      BInv (stiffenInit n outcomes) := by
    intro n outcomes
    constructor
    · show n = livecount (fun i => stiffenSteps (outcomes i))
      rw [livecount_of_all_pos _ (fun i => by rw [stiffenSteps]; omega)]
    · intro h
      exact absurd h Bool.false_ne_true
  refine ⟨?_, ?_, ?_, ?_⟩
  · intro n outcomes s hre hret i
    exact livecount_zero ((Reaches_inv hre (hinvU n outcomes)).2 hret) i
  · intro n outcomes s hre hret i
    exact livecount_zero ((Reaches_inv hre (hinvS n outcomes)).2 hret) i
  · intro n outcomes
    constructor
    · have hrun := run_to_final (∑ i, unfreezeSteps (outcomes i))
        (fun i => unfreezeSteps (outcomes i)) (le_refl _)
      have heq : (⟨fun i => unfreezeSteps (outcomes i),
          livecount (fun i => unfreezeSteps (outcomes i)), false⟩ : BState n) =
          unfreezeInit n outcomes := by
        rw [unfreezeInit]
        congr 1
        exact livecount_of_all_pos _ (fun i => by rw [unfreezeSteps]; omega)
      rw [heq] at hrun
      exact hrun
    · have hrun := run_to_final (∑ i, stiffenSteps (outcomes i))
        (fun i => stiffenSteps (outcomes i)) (le_refl _)
      have heq : (⟨fun i => stiffenSteps (outcomes i),
          livecount (fun i => stiffenSteps (outcomes i)), false⟩ : BState n) =
          stiffenInit n outcomes := by
        rw [stiffenInit]
        congr 1
        exact livecount_of_all_pos _ (fun i => by rw [stiffenSteps]; omega)
      rw [heq] at hrun
      exact hrun
  · intro o
    cases o with
    | connectFail => refine ⟨?_, ?_, ?_, ?_⟩ <;> decide
    | authWriteFail => refine ⟨?_, ?_, ?_, ?_⟩ <;> decide
    | ok sendOk => cases sendOk <;> refine ⟨?_, ?_, ?_, ?_⟩ <;> decide

/-- Witness for C5: a singleton unfreeze batch whose only goroutine fails to
connect still reaches the returned state, and at that point the goroutine has
terminated. -/
theorem batch_barrier_and_isolation_witness :
    Reaches (unfreezeInit 1 (fun _ => UnitOutcome.connectFail)) (finalBState 1)
      ∧ (finalBState 1).units ⟨0, Nat.zero_lt_one⟩ = 0 := by
  refine ⟨(batch_barrier_and_isolation.2.2.1 1 (fun _ => .connectFail)).1, ?_⟩
  exact batch_barrier_and_isolation.1 1 (fun _ => .connectFail) (finalBState 1)
    (batch_barrier_and_isolation.2.2.1 1 (fun _ => .connectFail)).1 rfl
    ⟨0, Nat.zero_lt_one⟩

/-- C6: registry append-only invariant.  No operation of the program removes
or replaces an element of the cube registry or the link registry — every
operation's result extends the old lists; despawning (and unfreezing) leaves
both registries exactly unchanged; and after any sequence of operations the
length of each registry equals its initial length plus the number of
successful appends made to it. -/
theorem registry_append_only :
    (∀ (s : RegState) (op : Op),
        (∃ t, (applyOp s op).cubes = s.cubes ++ t)
          ∧ ∃ t, (applyOp s op).links = s.links ++ t)
      ∧ (∀ s : RegState, applyOp s Op.despawnAll = s ∧ applyOp s Op.unfreezeAll = s)
      ∧ ∀ (ops : List Op) (s : RegState),
          (ops.foldl applyOp s).cubes.length =
            s.cubes.length + (ops.map cubeAppends).sum
          ∧ (ops.foldl applyOp s).links.length =
            s.links.length + (ops.map linkAppends).sum := by
  refine ⟨applyOp_extends, ?_, ?_⟩
  · intro s
    exact ⟨rfl, rfl⟩
  · intro ops s
    exact foldl_applyOp_len ops s

/-- C7: spawn registration condition and atomicity.  `spawnCube` appends the
entity name with the `_BASE` suffix to the cube registry (under the registry
lock, modelled as one atomic update) if and only if the dial, the auth write,
the auth-response read, and the spawn-command write all succeed; on any
failure the registry is left exactly unchanged, and the link registry is
never touched. -/
theorem spawnCube_registers_iff_success (name : String) (env : SpawnEnv)
    (s : RegState) :
    spawnCube name env s =
      (if spawnSucceeds env then { s with cubes := s.cubes ++ [name ++ "_BASE"] }
       else s)
      ∧ ((spawnCube name env s).cubes = s.cubes ++ [name ++ "_BASE"] ↔
          (env.dialOk = true ∧ env.authWriteOk = true
            ∧ (readResponseChunked env.authRespChunks).2 = none
            ∧ env.spawnWriteOk = true))
      ∧ (spawnCube name env s).links = s.links := by
  refine ⟨spawnCube_eq name env s, ?_, ?_⟩
  · rw [spawnCube_eq]
    by_cases hs : spawnSucceeds env = true
    · rw [if_pos hs]
      rw [spawnSucceeds, Bool.and_eq_true, Bool.and_eq_true] at hs
      exact Iff.intro (fun _ => ⟨hs.1.1, hs.1.2, rfl, hs.2⟩) (fun _ => rfl)
    · rw [if_neg hs]
      constructor
      · intro hcubes
        have := congrArg List.length hcubes
        simp at this
      · rintro ⟨h1, h2, -, h4⟩
        exact absurd (by rw [spawnSucceeds, h1, h2, h4]; rfl) hs
  · rw [spawnCube_eq]
    by_cases hs : spawnSucceeds env = true
    · rw [if_pos hs]
    · rw [if_neg hs]

/-- C8: chain expansion.  A chain contributes one link per consecutive pair,
in chain order (so a chain of K names contributes K−1 links), each with the
deterministically synthesized joint name `joint_<type>_<A>_<B>`; a successful
`linkCubeChains` call appends exactly these links for all its chains; and in
particular the chain `[A,B,C]` with type `hinge` yields `(A,B)` and `(B,C)`
named `joint_hinge_A_B` and `joint_hinge_B_C`. -/
theorem chain_expansion :
    (∀ (jointType : String) (chain : List String),
        chainLinks jointType chain =
          (chain.zip chain.tail).map
            (fun p => ⟨jointNameFor jointType p.1 p.2, p.1, p.2⟩)
          ∧ (chainLinks jointType chain).length = chain.length - 1)
      ∧ (∀ (s : RegState) (cs : List (List String)) (jointType : String),
          (applyOp s (Op.chains cs jointType true)).links =
            s.links ++ expandChains jointType cs)
      ∧ chainLinks "hinge" ["A", "B", "C"] =
        [⟨"joint_hinge_A_B", "A", "B"⟩, ⟨"joint_hinge_B_C", "B", "C"⟩] := by
  refine ⟨?_, ?_, by decide⟩
  · intro jointType chain
    exact ⟨chainLinks_eq_zip jointType chain, chainLinks_length jointType chain⟩
  · intro s cs jointType
    simp [applyOp]

/-- C9: link lookup determinism.  `findClosestJoint` scans the link registry
in creation order and returns the joint name of the first link either of
whose endpoints equals the target — equivalently the `find?` of the
registry — and returns the empty string when no link touches the target; in
particular with links `[(A,B,j1), (A,C,j2)]` recorded in that order it
returns `j1`, not `j2`. -/
theorem findClosestJoint_first_match :
    (∀ (target : String) (links : List CubeLink),
        findClosestJoint target links =
          (match links.find? (fun l => l.cubeA == target || l.cubeB == target) with
            | some l => l.jointName
            | none => ""))
      ∧ findClosestJoint "A" [⟨"j1", "A", "B"⟩, ⟨"j2", "A", "C"⟩] = "j1"
      ∧ findClosestJoint "Z" [⟨"j1", "A", "B"⟩, ⟨"j2", "A", "C"⟩] = "" :=
  ⟨fun target links => findClosestJoint_eq_find target links, by decide, by decide⟩

/-- C10: `rotateCubeJoints`, unlike every other batch operation, spawns one
goroutine per discovered joint and returns immediately: its control plan has
no barrier wait at all, while the plans of the spawn phase,
`unfreezeAllCubes`, `despawnAllCubes`, `setMouthColorYellow`,
`stiffenAllJoints` and `stiffenAllJointsBULK` all wait on the barrier before
returning.  The caller of `rotateCubeJoints` can therefore proceed (including
to teardown) while the per-joint actuation cycles are still in flight. -/
theorem rotateCubeJoints_no_barrier :
    (∀ joints : List String,
        EngineStep.waitAll ∉ rotateCubeJointsPlan joints
          ∧ (rotateCubeJointsPlan joints).countP isSpawnGo = joints.length
          ∧ EngineStep.ret ∈ rotateCubeJointsPlan joints)
      ∧ (∀ cubes : List String,
          EngineStep.waitAll ∈ spawnPhasePlan cubes
            ∧ EngineStep.waitAll ∈ unfreezeAllPlan cubes
            ∧ EngineStep.waitAll ∈ despawnAllPlan cubes
            ∧ EngineStep.waitAll ∈ setMouthColorPlan cubes)
      ∧ ∀ links : List CubeLink,
          EngineStep.waitAll ∈ stiffenAllPlan links
            ∧ EngineStep.waitAll ∈ stiffenBULKPlan links := by
  refine ⟨?_, ?_, ?_⟩
  · intro joints
    refine ⟨?_, ?_, ?_⟩
    · rw [rotateCubeJointsPlan]
      intro hmem
      rcases List.mem_append.mp hmem with h | h
      · obtain ⟨a, -, ha⟩ := List.mem_map.mp h
        exact EngineStep.noConfusion ha
      · simp at h
    · rw [rotateCubeJointsPlan, List.countP_append]
      have h1 : (joints.map EngineStep.spawnGo).countP isSpawnGo = joints.length := by
        induction joints with
        | nil => rfl
        | cons j rest ih =>
          rw [List.map_cons, List.countP_cons, ih]
          simp [isSpawnGo]
      rw [h1]
      rfl
    · simp [rotateCubeJointsPlan]
  · intro cubes
    refine ⟨?_, ?_, ?_, ?_⟩ <;>
      simp [spawnPhasePlan, unfreezeAllPlan, despawnAllPlan, setMouthColorPlan]
  · intro links
    constructor <;> simp [stiffenAllPlan, stiffenBULKPlan]

end Pixel
